import Mathlib

/-!
# MidDB storage engine: shallow embedding and verification

This file embeds the storage engine of `src/MidDB.cpp` (the persistent,
HNSW-backed version of the class `MidDB`) in Lean and proves properties of it.

Modelling conventions:
* C++ `unordered_map` values that the code only ever reads pointwise
  (`labelToID`, `fieldIndex`) are modelled as Lean functions; maps the code
  iterates over (`records`, the ANN point set, a record's `fields`) are
  modelled as association lists.
* 32-bit float values are modelled as exact integers (`ℤ`): the engine's
  arithmetic on them is only subtraction, multiplication and addition (the
  squared L2 distance), so any ordered commutative ring carrier preserves
  the behaviour, and `ℤ` keeps concrete states kernel-computable; the
  distance used for ranking is the squared L2 distance, whose order
  coincides with L2.
* The HNSW index (`hnswlib`) is an external dependency of the repository,
  not part of its sources; its behaviour is modelled from the ANN index
  contract of the specification (see `searchKnn`).
-/

namespace MidDB

/-- Association-list lookup (first match wins), mirroring `unordered_map` reads. -/
def alookup {κ α : Type} [DecidableEq κ] : List (κ × α) → κ → Option α
  | [], _ => none
  | p :: ps, k => if p.1 = k then some p.2 else alookup ps k

/-- Association-list store, mirroring `map[k] = a`: overwrite if the key is
present, append otherwise. -/
def aset {κ α : Type} [DecidableEq κ] (l : List (κ × α)) (k : κ) (a : α) : List (κ × α) :=
  match alookup l k with
  | some _ => l.map (fun p => if p.1 = k then (k, a) else p)
  | none => l ++ [(k, a)]

/-- Association-list erase, mirroring `map.erase(k)`. -/
def aerase {κ α : Type} [DecidableEq κ] (l : List (κ × α)) (k : κ) : List (κ × α) :=
  l.filter (fun p => p.1 ≠ k)

/-- `struct Record`: structured fields, embedding vector, HNSW label. -/
structure Record where
  fields : List (String × String)
  embedding : List ℤ
  label : Nat
deriving DecidableEq

/-- One stored point of the ANN index: its vector and its soft-delete mark. -/
structure AnnPoint where
  vec : List ℤ
  deleted : Bool
deriving DecidableEq

/-- Modelled from the spec: the ANN index of §4.5 (`hnswlib` is not part of
the repository sources).  It stores points keyed by label, each carrying a
soft-delete mark. -/
structure AnnIndex where
  dim : Nat
  points : List (Nat × AnnPoint)
deriving DecidableEq

/-- `addPoint(vec, label)`: insert or overwrite the point at `label`, live. -/
def addPoint (ix : AnnIndex) (vec : List ℤ) (label : Nat) : AnnIndex :=
  { ix with points := aset ix.points label ⟨vec, false⟩ }

/-- `markDelete(label)`: soft-delete the point at `label` if present. -/
def markDelete (ix : AnnIndex) (label : Nat) : AnnIndex :=
  { ix with points := ix.points.map (fun p => if p.1 = label then (p.1, ⟨p.2.vec, true⟩) else p) }

/-- Squared L2 distance between two vectors (the ranking order of hnswlib's
`L2Space`; the square root taken nowhere in the persistent engine). -/
def d2 (q v : List ℤ) : ℤ :=
  ((q.zip v).map (fun p => (p.1 - p.2) ^ 2)).sum

/-- Modelled from the spec: `search_knn(query_vec, k)` of the §4.5 ANN
contract — k-NN by L2 distance ascending, excluding soft-deleted labels,
returning at most `k` pairs `(distance, label)`.  The caller consumes the
returned sequence in order (nearest first). -/
def searchKnn (ix : AnnIndex) (q : List ℤ) (k : Nat) : List (ℤ × Nat) :=
  (List.insertionSort (fun a b => a.1 ≤ b.1)
    ((ix.points.filter (fun p => p.2.deleted = false)).map
      (fun p => (d2 q p.2.vec, p.1)))).take k

/-- `struct Table` of the persistent engine. -/
structure Table where
  records : List (String × Record)
  index : Option AnnIndex
  labelToID : Nat → Option String
  nextLabel : Nat
  dim : Nat
  fieldIndex : String → String → List String

/-- A table as freshly constructed by `createTable(name, dim)`. -/
def freshTable (dim : Nat) : Table :=
  { records := [], index := none, labelToID := fun _ => none,
    nextLabel := 0, dim := dim, fieldIndex := fun _ _ => [] }

instance : Inhabited Table := ⟨freshTable 0⟩

/-- The engine state: `tables`, the map from table name to table. -/
def EngineState : Type := String → Option Table

/-- The empty engine (no tables). -/
def initState : EngineState := fun _ => none

/-- Point update of the `tables` map. -/
def updateTable (s : EngineState) (name : String) (T : Table) : EngineState :=
  fun n => if n = name then some T else s n

/-- `createTable(tableName, dim)`: create the table if absent, else no-op. -/
def createTable (s : EngineState) (name : String) (dim : Nat) : EngineState :=
  match s name with
  | some _ => s
  | none => updateTable s name (freshTable dim)

/-- The `InsertTask` queued by `insert`/`update` and applied by the worker. -/
structure InsertTask where
  tableName : String
  recordID : String
  fields : List (String × String)
  embedding : List ℤ

/-- Set-insert of an id into one `fieldIndex` bucket (`unordered_set::insert`). -/
def setInsert (id : String) (l : List String) : List String :=
  if id ∈ l then l else id :: l

/-- Set-erase of an id from one `fieldIndex` bucket (`unordered_set::erase`). -/
def setErase (id : String) (l : List String) : List String :=
  l.filter (fun x => x ≠ id)

/-- `table.fieldIndex[k][v].insert(id)` as a function update. -/
def fiInsert (fi : String → String → List String) (k v id : String) :
    String → String → List String :=
  fun k' v' => if k' = k ∧ v' = v then setInsert id (fi k' v') else fi k' v'

/-- `table.fieldIndex[k][v].erase(id)` as a function update. -/
def fiErase (fi : String → String → List String) (k v id : String) :
    String → String → List String :=
  fun k' v' => if k' = k ∧ v' = v then setErase id (fi k' v') else fi k' v'

/-- The field-index fold performed by `processInsert` over the task's fields. -/
def fiFoldIns (fields : List (String × String)) (id : String)
    (fi : String → String → List String) : String → String → List String :=
  fields.foldl (fun fi kv => fiInsert fi kv.1 kv.2 id) fi

/-- The field-index fold performed by `remove` over the record's fields. -/
def fiFoldDel (fields : List (String × String)) (id : String)
    (fi : String → String → List String) : String → String → List String :=
  fields.foldl (fun fi kv => fiErase fi kv.1 kv.2 id) fi

/-- The table-level effect of one upsert: ensure the ANN index exists, reuse
the label of an existing `recordID` or allocate `nextLabel` for a new one,
record the label mapping, add the new fields to the field index (old entries
are left in place), and `addPoint` the embedding at the chosen label. -/
def upsertTable (table : Table) (task : InsertTask) : Table :=
  match alookup table.records task.recordID with
  | some r =>
    { records := table.records.map
        (fun p => if p.1 = task.recordID then
          (task.recordID,
            { fields := task.fields, embedding := task.embedding, label := r.label }) else p)
      index := some (addPoint
        (table.index.getD { dim := task.embedding.length, points := [] })
        task.embedding r.label)
      labelToID := fun l => if l = r.label then some task.recordID else table.labelToID l
      nextLabel := table.nextLabel
      dim := table.dim
      fieldIndex := fiFoldIns task.fields task.recordID table.fieldIndex }
  | none =>
    { records := table.records ++
        [(task.recordID,
          { fields := task.fields, embedding := task.embedding, label := table.nextLabel })]
      index := some (addPoint
        (table.index.getD { dim := task.embedding.length, points := [] })
        task.embedding table.nextLabel)
      labelToID := fun l => if l = table.nextLabel then some task.recordID else table.labelToID l
      nextLabel := table.nextLabel + 1
      dim := table.dim
      fieldIndex := fiFoldIns task.fields task.recordID table.fieldIndex }

/-- `MidDB::processInsert(task)`: the worker's application of one upsert
(`src/MidDB.cpp` lines 204–238).  Creates the table lazily with `dim` from
the task's embedding length, then applies `upsertTable`. -/
def processInsert (s : EngineState) (task : InsertTask) : EngineState :=
  let s1 := createTable s task.tableName task.embedding.length
  updateTable s1 task.tableName
    (upsertTable ((s1 task.tableName).getD (freshTable task.embedding.length)) task)

/-- The table-level effect of deleting the record `(recordID, r)`. -/
def removeFromTable (table : Table) (recordID : String) (r : Record) : Table :=
  { records := aerase table.records recordID
    index := table.index.map (fun ix => markDelete ix r.label)
    labelToID := fun l => if l = r.label then none else table.labelToID l
    nextLabel := table.nextLabel
    dim := table.dim
    fieldIndex := fiFoldDel r.fields recordID table.fieldIndex }

/-- `MidDB::remove(tableName, recordID)` (lines 288–313): no-op when the
table or record is absent; otherwise erase the record and its label mapping,
erase the id from the field-index buckets of the record's fields, and
soft-delete its label in the ANN index.  (The C++ reads the record's fields
through the iterator it has just erased; the embedding binds the record
value before removal, which is the only behaviour expressible without
undefined behaviour.) -/
def remove (s : EngineState) (tableName recordID : String) : EngineState :=
  match s tableName with
  | none => s
  | some table =>
    match alookup table.records recordID with
    | none => s
    | some r => updateTable s tableName (removeFromTable table recordID r)

/-- `MidDB::queryField(tableName, field, value)` (lines 315–330): empty when
the table is absent, else the `fieldIndex[field][value]` bucket sorted
ascending (`std::sort` with `operator<` on `std::string`). -/
def queryField (s : EngineState) (tableName field value : String) : List String :=
  match s tableName with
  | none => []
  | some table => List.insertionSort (fun a b => a ≤ b) (table.fieldIndex field value)

/-- `MidDB::queryEmbedding(tableName, embedding, topK)` (lines 332–346):
empty when the table is absent or its ANN index is not yet populated;
otherwise consume the `searchKnn` result in order, mapping labels back to
ids through `labelToID` and silently dropping labels without an entry. -/
def queryEmbedding (s : EngineState) (tableName : String) (q : List ℤ) (topK : Nat) :
    List String :=
  match s tableName with
  | none => []
  | some table =>
    match table.index with
    | none => []
    | some ix => (searchKnn ix q topK).filterMap (fun dl => table.labelToID dl.2)

/-- `MidDB::queryHybrid(tableName, field, value, embedding, topK)`
(lines 348–362): field filter first (short-circuiting when empty), then the
ANN candidates with inflated `k = topK * 10`, kept in candidate order when
they pass the filter, truncated to `topK` only when longer. -/
def queryHybrid (s : EngineState) (tableName field value : String)
    (q : List ℤ) (topK : Nat) : List String :=
  let filteredIDs := queryField s tableName field value
  if filteredIDs = [] then []
  else
    let candidateIDs := queryEmbedding s tableName q (topK * 10)
    let final := candidateIDs.filter (fun id => decide (id ∈ filteredIDs))
    if topK < final.length then final.take topK else final

/-- One snapshot entry of `<table>.json`: `id → {fields, embedding, label}`. -/
abbrev Snapshot : Type := List (String × (List (String × String) × List ℤ × Nat))

/-- `MidDB::saveTable` (lines 364–374): serialize every record as
`{fields, embedding, label}` keyed by id, in record-map order. -/
def saveTable (table : Table) : Snapshot :=
  table.records.map (fun p => (p.1, (p.2.fields, p.2.embedding, p.2.label)))

/-- One iteration of the `loadTable` loop: `t.records[id] = r`, the
`labelToID` entry, the field-index entries of the record's fields, `dim`
from the first record whose embedding length is seen while `dim == 0`,
and `nextLabel = label + 1` whenever `label >= nextLabel`. -/
def loadStep (t : Table) (e : String × (List (String × String) × List ℤ × Nat)) : Table :=
  { records := aset t.records e.1 ⟨e.2.1, e.2.2.1, e.2.2.2⟩
    index := none
    labelToID := fun l => if l = e.2.2.2 then some e.1 else t.labelToID l
    nextLabel := if e.2.2.2 ≥ t.nextLabel then e.2.2.2 + 1 else t.nextLabel
    dim := if t.dim = 0 then e.2.2.1.length else t.dim
    fieldIndex := fiFoldIns e.2.1 e.1 t.fieldIndex }

/-- `MidDB::loadTable` (lines 381–404): rebuild a table from its snapshot —
`records`, `labelToID` and `fieldIndex` entry by entry, `dim` from the first
record with a nonzero embedding length, `nextLabel` as one past the largest
label seen.  The `.index` file is an opaque hnswlib blob outside this
embedding; the reloaded ANN graph is not modelled (the spec compares states
"modulo the ANN graph"). -/
def loadTable (snap : Snapshot) : Table :=
  snap.foldl loadStep (freshTable 0)

/-- The write operations of the engine: upsert (insert/update, as applied by
the worker) and synchronous delete. -/
inductive Op where
  | upsert (tableName recordID : String)
      (fields : List (String × String)) (embedding : List ℤ)
  | del (tableName recordID : String)

/-- Apply one operation to the engine state. -/
def step (s : EngineState) : Op → EngineState
  | .upsert t id f e => processInsert s ⟨t, id, f, e⟩
  | .del t id => remove s t id

/-- Replay a sequence of operations from a given state. -/
def runFrom (s : EngineState) (ops : List Op) : EngineState :=
  ops.foldl step s

/-- Replay a sequence of operations from the empty engine. -/
def run (ops : List Op) : EngineState := runFrom initState ops

/-- A state is reachable when some operation sequence produces it. -/
def reachable (s : EngineState) : Prop := ∃ ops, run ops = s

/-- The record stored under `id` in table `t`, if any. -/
def recordOf (s : EngineState) (t id : String) : Option Record :=
  match s t with
  | none => none
  | some table => alookup table.records id

/-- The table under name `t`, defaulting to an empty table (used only to
state closed counterexamples without binders). -/
def tableOf (s : EngineState) (t : String) : Table :=
  (s t).getD (freshTable 0)

/-! ## Association-list lemmas -/

section Assoc

variable {κ α : Type} [DecidableEq κ]

theorem mem_of_alookup {l : List (κ × α)} {k : κ} {a : α}
    (h : alookup l k = some a) : (k, a) ∈ l := by
  induction l with
  | nil => simp [alookup] at h
  | cons p ps ih =>
    by_cases hpk : p.1 = k
    · simp only [alookup, if_pos hpk] at h
      obtain ⟨p1, p2⟩ := p
      simp only at hpk
      injection h with h2
      subst hpk; subst h2
      exact List.mem_cons_self _ _
    · simp only [alookup, if_neg hpk] at h
      exact List.mem_cons_of_mem _ (ih h)

theorem alookup_of_mem_nodup {l : List (κ × α)} {k : κ} {a : α}
    (hn : (l.map Prod.fst).Nodup) (h : (k, a) ∈ l) : alookup l k = some a := by
  induction l with
  | nil => simp at h
  | cons p ps ih =>
    simp only [List.map_cons, List.nodup_cons] at hn
    rcases List.mem_cons.mp h with h | h
    · subst h; simp [alookup]
    · have hk : p.1 ≠ k := by
        intro hpk
        exact hn.1 (hpk ▸ (List.mem_map.mpr ⟨(k, a), h, rfl⟩))
      simp only [alookup, if_neg hk]
      exact ih hn.2 h

theorem alookup_isSome_iff {l : List (κ × α)} {k : κ} :
    (alookup l k).isSome ↔ ∃ a, (k, a) ∈ l := by
  constructor
  · intro h
    rcases Option.isSome_iff_exists.mp h with ⟨a, ha⟩
    exact ⟨a, mem_of_alookup ha⟩
  · intro ⟨a, ha⟩
    induction l with
    | nil => simp at ha
    | cons p ps ih =>
      by_cases hpk : p.1 = k
      · simp [alookup, hpk]
      · simp only [alookup, if_neg hpk]
        rcases List.mem_cons.mp ha with h | h
        · cases h; simp at hpk
        · exact ih h

theorem alookup_append_some {l m : List (κ × α)} {k : κ} {a : α}
    (h : alookup l k = some a) : alookup (l ++ m) k = some a := by
  induction l with
  | nil => simp [alookup] at h
  | cons p ps ih =>
    by_cases hpk : p.1 = k
    · simp_all [alookup]
    · simp_all [alookup]

theorem alookup_append_none {l m : List (κ × α)} {k : κ}
    (h : alookup l k = none) : alookup (l ++ m) k = alookup m k := by
  induction l with
  | nil => simp [alookup]
  | cons p ps ih =>
    by_cases hpk : p.1 = k
    · simp_all [alookup]
    · simp_all [alookup]

theorem alookup_singleton_self {k : κ} {a : α} : alookup [(k, a)] k = some a := by
  simp [alookup]

theorem alookup_singleton_ne {k k' : κ} {a : α} (h : k ≠ k') :
    alookup [(k, a)] k' = none := by
  simp [alookup, h]

/-- Lookup in the map-replace used by the update branch of `processInsert`. -/
theorem alookup_replace_self {l : List (κ × α)} {k : κ}
    (h : (alookup l k).isSome) (a : α) :
    alookup (l.map (fun p => if p.1 = k then (k, a) else p)) k = some a := by
  induction l with
  | nil => simp [alookup] at h
  | cons p ps ih =>
    by_cases hpk : p.1 = k
    · simp [alookup, hpk]
    · simp only [List.map_cons, if_neg hpk, alookup, if_neg hpk]
      apply ih
      simpa [alookup, if_neg hpk] using h

theorem alookup_replace_ne {l : List (κ × α)} {k k' : κ} (a : α) (h : k' ≠ k) :
    alookup (l.map (fun p => if p.1 = k then (k, a) else p)) k' = alookup l k' := by
  induction l with
  | nil => simp [alookup]
  | cons p ps ih =>
    by_cases hpk : p.1 = k
    · have : k ≠ k' := fun hk => h hk.symm
      simp [alookup, hpk, this, ih]
    · simp [alookup, hpk, ih]

theorem mem_replace {l : List (κ × α)} {k : κ} {a : α} {q : κ × α}
    (h : q ∈ l.map (fun p => if p.1 = k then (k, a) else p)) :
    q = (k, a) ∨ (q ∈ l ∧ q.1 ≠ k) := by
  rcases List.mem_map.mp h with ⟨p, hp, hq⟩
  by_cases hpk : p.1 = k
  · left; rw [if_pos hpk] at hq; exact hq.symm
  · right; rw [if_neg hpk] at hq; exact ⟨hq ▸ hp, hq ▸ hpk⟩

theorem keys_replace (l : List (κ × α)) (k : κ) (a : α) :
    (l.map (fun p => if p.1 = k then (k, a) else p)).map Prod.fst = l.map Prod.fst := by
  rw [List.map_map]
  apply List.map_congr_left
  intro p _
  by_cases hpk : p.1 = k
  · simp [hpk]
  · simp [hpk]

theorem alookup_aerase_self (l : List (κ × α)) (k : κ) : alookup (aerase l k) k = none := by
  induction l with
  | nil => simp [aerase, alookup]
  | cons p ps ih =>
    by_cases hpk : p.1 = k
    · simpa [aerase, hpk] using ih
    · simpa [aerase, alookup, hpk] using ih

theorem alookup_aerase_ne {l : List (κ × α)} {k k' : κ} (h : k' ≠ k) :
    alookup (aerase l k) k' = alookup l k' := by
  induction l with
  | nil => rfl
  | cons p ps ih =>
    simp only [aerase] at ih ⊢
    by_cases hpk : p.1 = k
    · have hp' : ¬p.1 = k' := fun hc => h (hc ▸ hpk)
      rw [List.filter_cons_of_neg (by simp [hpk])]
      rw [ih]
      simp only [alookup, if_neg hp']
    · rw [List.filter_cons_of_pos (by simp [hpk])]
      by_cases hpk' : p.1 = k'
      · simp [alookup, hpk']
      · simp only [alookup, if_neg hpk']
        exact ih

theorem mem_aerase {l : List (κ × α)} {k : κ} {q : κ × α} :
    q ∈ aerase l k ↔ q ∈ l ∧ q.1 ≠ k := by
  simp [aerase, List.mem_filter]

theorem aerase_sublist (l : List (κ × α)) (k : κ) : List.Sublist (aerase l k) l :=
  List.filter_sublist l

theorem aset_of_alookup_none {l : List (κ × α)} {k : κ} (a : α)
    (h : alookup l k = none) : aset l k a = l ++ [(k, a)] := by
  simp [aset, h]

theorem alookup_eq_none_iff {l : List (κ × α)} {k : κ} :
    alookup l k = none ↔ k ∉ l.map Prod.fst := by
  induction l with
  | nil => simp [alookup]
  | cons p ps ih =>
    by_cases hpk : p.1 = k
    · simp [alookup, hpk]
    · have hkp : ¬k = p.1 := fun h => hpk h.symm
      simp [alookup, hpk, hkp, ih]

theorem mem_aset {l : List (κ × α)} {k : κ} {a : α} {q : κ × α}
    (h : q ∈ aset l k a) : q = (k, a) ∨ (q ∈ l ∧ q.1 ≠ k) := by
  unfold aset at h
  split at h
  · exact mem_replace h
  · next hl =>
    rcases List.mem_append.mp h with hm | hm
    · right
      refine ⟨hm, fun hq => ?_⟩
      exact (alookup_eq_none_iff.mp hl) (List.mem_map.mpr ⟨q, hm, hq⟩)
    · left
      simpa using hm

end Assoc

/-! ## Field-index bucket and fold lemmas -/

theorem mem_setInsert {id x : String} {l : List String} :
    x ∈ setInsert id l ↔ x = id ∨ x ∈ l := by
  by_cases h : id ∈ l
  · simp only [setInsert, if_pos h]
    constructor
    · exact Or.inr
    · rintro (rfl | hx)
      · exact h
      · exact hx
  · simp [setInsert, if_neg h]

theorem setInsert_nodup {id : String} {l : List String} (h : l.Nodup) :
    (setInsert id l).Nodup := by
  by_cases hm : id ∈ l
  · simpa [setInsert, hm] using h
  · rw [setInsert, if_neg hm]
    exact List.nodup_cons.mpr ⟨hm, h⟩

theorem mem_setErase {id x : String} {l : List String} :
    x ∈ setErase id l ↔ x ∈ l ∧ x ≠ id := by
  simp [setErase, List.mem_filter]

theorem setErase_nodup {id : String} {l : List String} (h : l.Nodup) :
    (setErase id l).Nodup :=
  h.filter _

theorem mem_fiInsert {fi : String → String → List String} {k v id k' v' x : String} :
    x ∈ fiInsert fi k v id k' v' ↔
      (k' = k ∧ v' = v ∧ x = id) ∨ x ∈ fi k' v' := by
  by_cases h : k' = k ∧ v' = v
  · simp only [fiInsert, if_pos h, mem_setInsert]
    constructor
    · rintro (rfl | hx)
      · exact Or.inl ⟨h.1, h.2, rfl⟩
      · exact Or.inr hx
    · rintro (⟨_, _, rfl⟩ | hx)
      · exact Or.inl rfl
      · exact Or.inr hx
  · simp only [fiInsert, if_neg h]
    constructor
    · exact Or.inr
    · rintro (⟨h1, h2, _⟩ | hx)
      · exact absurd ⟨h1, h2⟩ h
      · exact hx

theorem mem_fiErase {fi : String → String → List String} {k v id k' v' x : String} :
    x ∈ fiErase fi k v id k' v' ↔
      x ∈ fi k' v' ∧ ¬(k' = k ∧ v' = v ∧ x = id) := by
  by_cases h : k' = k ∧ v' = v
  · simp only [fiErase, if_pos h, mem_setErase]
    constructor
    · rintro ⟨hx, hne⟩
      exact ⟨hx, fun hc => hne hc.2.2⟩
    · rintro ⟨hx, hne⟩
      refine ⟨hx, fun hc => hne ⟨h.1, h.2, hc⟩⟩
  · simp only [fiErase, if_neg h]
    constructor
    · intro hx
      exact ⟨hx, fun hc => h ⟨hc.1, hc.2.1⟩⟩
    · exact And.left

theorem mem_fiFoldIns {fields : List (String × String)} {id : String}
    {fi : String → String → List String} {k v x : String} :
    x ∈ fiFoldIns fields id fi k v ↔
      (x = id ∧ (k, v) ∈ fields) ∨ x ∈ fi k v := by
  induction fields generalizing fi with
  | nil => simp [fiFoldIns]
  | cons kv rest ih =>
    simp only [fiFoldIns, List.foldl_cons] at *
    rw [ih, mem_fiInsert]
    constructor
    · rintro (⟨rfl, hkv⟩ | (⟨rfl, rfl, rfl⟩ | hx))
      · exact Or.inl ⟨rfl, List.mem_cons_of_mem _ hkv⟩
      · exact Or.inl ⟨rfl, List.mem_cons_self _ _⟩
      · exact Or.inr hx
    · rintro (⟨rfl, hkv⟩ | hx)
      · rcases List.mem_cons.mp hkv with h | h
        · refine Or.inr (Or.inl ?_)
          cases h
          exact ⟨rfl, rfl, rfl⟩
        · exact Or.inl ⟨rfl, h⟩
      · exact Or.inr (Or.inr hx)

theorem mem_fiFoldDel {fields : List (String × String)} {id : String}
    {fi : String → String → List String} {k v x : String} :
    x ∈ fiFoldDel fields id fi k v ↔
      x ∈ fi k v ∧ ¬(x = id ∧ (k, v) ∈ fields) := by
  induction fields generalizing fi with
  | nil => simp [fiFoldDel]
  | cons kv rest ih =>
    simp only [fiFoldDel, List.foldl_cons] at *
    rw [ih, mem_fiErase]
    constructor
    · rintro ⟨⟨hx, hne⟩, hrest⟩
      refine ⟨hx, ?_⟩
      rintro ⟨rfl, hkv⟩
      rcases List.mem_cons.mp hkv with h | h
      · cases h
        exact hne ⟨rfl, rfl, rfl⟩
      · exact hrest ⟨rfl, h⟩
    · rintro ⟨hx, hne⟩
      constructor
      · refine ⟨hx, ?_⟩
        rintro ⟨rfl, rfl, rfl⟩
        exact hne ⟨rfl, List.mem_cons_self _ _⟩
      · rintro ⟨rfl, hkv⟩
        exact hne ⟨rfl, List.mem_cons_of_mem _ hkv⟩

theorem fiFoldIns_nodup {fields : List (String × String)} {id : String}
    {fi : String → String → List String} (h : ∀ k v, (fi k v).Nodup) :
    ∀ k v, (fiFoldIns fields id fi k v).Nodup := by
  induction fields generalizing fi with
  | nil => exact h
  | cons kv rest ih =>
    refine ih (fun k v => ?_)
    simp only [fiInsert]
    by_cases hc : k = kv.1 ∧ v = kv.2
    · rw [if_pos hc]; exact setInsert_nodup (h _ _)
    · rw [if_neg hc]; exact h _ _

theorem fiFoldDel_nodup {fields : List (String × String)} {id : String}
    {fi : String → String → List String} (h : ∀ k v, (fi k v).Nodup) :
    ∀ k v, (fiFoldDel fields id fi k v).Nodup := by
  induction fields generalizing fi with
  | nil => exact h
  | cons kv rest ih =>
    refine ih (fun k v => ?_)
    simp only [fiErase]
    by_cases hc : k = kv.1 ∧ v = kv.2
    · rw [if_pos hc]; exact setErase_nodup (h _ _)
    · rw [if_neg hc]; exact h _ _

/-! ## Reachable-state invariants -/

/-- The data-structure invariants a table satisfies in every reachable
engine state. -/
structure TableInv (T : Table) : Prop where
  nodupKeys : (T.records.map Prod.fst).Nodup
  labelLt : ∀ p ∈ T.records, p.2.label < T.nextLabel
  ltiComplete : ∀ p ∈ T.records, T.labelToID p.2.label = some p.1
  ltiSound : ∀ l id, T.labelToID l = some id →
    ∃ r, alookup T.records id = some r ∧ r.label = l
  fiComplete : ∀ p ∈ T.records, ∀ kv ∈ p.2.fields, p.1 ∈ T.fieldIndex kv.1 kv.2
  fiNodup : ∀ k v, (T.fieldIndex k v).Nodup
  annCoherent : ∀ ix, T.index = some ix → ∀ q ∈ ix.points, q.2.deleted = false →
    ∃ id r, T.labelToID q.1 = some id ∧ alookup T.records id = some r ∧
      r.label = q.1 ∧ r.embedding = q.2.vec

/-- Every table of the state satisfies `TableInv`. -/
def EngineInv (s : EngineState) : Prop :=
  ∀ name T, s name = some T → TableInv T

theorem tableInv_fresh (dim : Nat) : TableInv (freshTable dim) := by
  constructor <;> simp [freshTable]

theorem engineInv_init : EngineInv initState := by
  intro name T h
  simp [initState] at h

theorem createTable_self (s : EngineState) (name : String) (dim : Nat) :
    (createTable s name dim) name = some ((s name).getD (freshTable dim)) := by
  unfold createTable
  cases h : s name with
  | some T => simp [h]
  | none => simp [h, updateTable]

theorem createTable_other {s : EngineState} {name n : String} (dim : Nat) (h : n ≠ name) :
    (createTable s name dim) n = s n := by
  unfold createTable
  cases hs : s name with
  | some T => rfl
  | none => simp [updateTable, h]

theorem updateTable_self (s : EngineState) (name : String) (T : Table) :
    (updateTable s name T) name = some T := by
  simp [updateTable]

theorem updateTable_other {s : EngineState} {name n : String} (T : Table) (h : n ≠ name) :
    (updateTable s name T) n = s n := by
  simp [updateTable, h]

theorem engineInv_createTable {s : EngineState} (hs : EngineInv s) (name : String)
    (dim : Nat) : EngineInv (createTable s name dim) := by
  intro n T h
  by_cases hn : n = name
  · subst hn
    rw [createTable_self] at h
    cases hsn : s n with
    | some T0 =>
      rw [hsn] at h
      simp only [Option.getD_some] at h
      injection h with h
      exact h ▸ hs n T0 hsn
    | none =>
      rw [hsn] at h
      simp only [Option.getD_none] at h
      injection h with h
      exact h ▸ tableInv_fresh dim
  · rw [createTable_other dim hn] at h
    exact hs n T h

/-- A key fact derived from the invariant: records with the same label
are the same entry. -/
theorem label_inj {T : Table} (hT : TableInv T) {p q : String × Record}
    (hp : p ∈ T.records) (hq : q ∈ T.records) (h : p.2.label = q.2.label) : p = q := by
  have h1 := hT.ltiComplete p hp
  have h2 := hT.ltiComplete q hq
  rw [h] at h1
  rw [h1] at h2
  have hids : p.1 = q.1 := by injection h2
  -- with distinct keys, equal keys force equal entries
  have := List.inj_on_of_nodup_map hT.nodupKeys
  exact this hp hq hids

/-- Membership and `alookup` agree under distinct keys. -/
theorem alookup_eq_of_mem {T : Table} (hT : TableInv T) {p : String × Record}
    (hp : p ∈ T.records) : alookup T.records p.1 = some p.2 :=
  alookup_of_mem_nodup hT.nodupKeys (by cases p; exact hp)

/-- One upsert preserves the table invariant. -/
theorem tableInv_upsertTable {table : Table} (hT : TableInv table) (task : InsertTask) :
    TableInv (upsertTable table task) := by
  have hixpts : ∀ q ∈ (table.index.getD
      { dim := task.embedding.length, points := [] } : AnnIndex).points,
      q.2.deleted = false →
      ∃ id r, table.labelToID q.1 = some id ∧ alookup table.records id = some r ∧
        r.label = q.1 ∧ r.embedding = q.2.vec := by
    cases hidx : table.index with
    | none => intro q hq; simp at hq
    | some ix0 =>
      intro q hq hqd
      exact hT.annCoherent ix0 hidx q (by simpa using hq) hqd
  unfold upsertTable
  cases halo : alookup table.records task.recordID with
  | some r =>
    dsimp only
    have hrmem : (task.recordID, r) ∈ table.records := mem_of_alookup halo
    constructor
    · simpa only [keys_replace] using hT.nodupKeys
    · intro p hp
      rcases mem_replace hp with rfl | ⟨hpl, _⟩
      · exact hT.labelLt (task.recordID, r) hrmem
      · exact hT.labelLt p hpl
    · intro p hp
      rcases mem_replace hp with rfl | ⟨hpl, hpk⟩
      · simp
      · have hne : p.2.label ≠ r.label := by
          intro he
          have := label_inj hT hpl hrmem he
          exact hpk (by rw [this])
        dsimp only
        rw [if_neg hne]
        exact hT.ltiComplete p hpl
    · intro l id hl
      dsimp only at hl ⊢
      by_cases hlr : l = r.label
      · subst hlr
        rw [if_pos rfl] at hl
        injection hl with hl
        subst hl
        refine ⟨⟨task.fields, task.embedding, r.label⟩, ?_, rfl⟩
        exact alookup_replace_self (by rw [halo]; rfl) _
      · rw [if_neg hlr] at hl
        obtain ⟨r'', halo'', hlab⟩ := hT.ltiSound l id hl
        by_cases hid : id = task.recordID
        · subst hid
          rw [halo] at halo''
          injection halo'' with he
          rw [← he] at hlab
          exact absurd hlab.symm hlr
        · exact ⟨r'', by rw [alookup_replace_ne _ hid]; exact halo'', hlab⟩
    · intro p hp kv hkv
      dsimp only
      rcases mem_replace hp with rfl | ⟨hpl, _⟩
      · exact mem_fiFoldIns.mpr (Or.inl ⟨rfl, hkv⟩)
      · exact mem_fiFoldIns.mpr (Or.inr (hT.fiComplete p hpl kv hkv))
    · exact fiFoldIns_nodup hT.fiNodup
    · intro ix hix q hq hqd
      injection hix with hix
      subst hix
      rcases mem_aset hq with rfl | ⟨hqm, hqne⟩
      · refine ⟨task.recordID, ⟨task.fields, task.embedding, r.label⟩, ?_, ?_, rfl, rfl⟩
        · simp
        · exact alookup_replace_self (by rw [halo]; rfl) _
      · obtain ⟨id, r', hlid, halor, hlab, hemb⟩ := hixpts q hqm hqd
        refine ⟨id, r', ?_, ?_, hlab, hemb⟩
        · dsimp only
          rw [if_neg hqne]
          exact hlid
        · by_cases hid : id = task.recordID
          · subst hid
            rw [halo] at halor
            injection halor with he
            rw [← he] at hlab
            exact absurd hlab.symm hqne
          · rw [alookup_replace_ne _ hid]; exact halor
  | none =>
    dsimp only
    have hkey : task.recordID ∉ table.records.map Prod.fst := alookup_eq_none_iff.mp halo
    constructor
    · rw [List.map_append]
      refine List.Nodup.append hT.nodupKeys (List.nodup_singleton _) ?_
      intro x hx hx2
      simp only [List.map_cons, List.map_nil, List.mem_singleton] at hx2
      subst hx2
      exact hkey hx
    · intro p hp
      rcases List.mem_append.mp hp with hpl | hpn
      · exact Nat.lt_succ_of_lt (hT.labelLt p hpl)
      · simp only [List.mem_singleton] at hpn
        subst hpn
        exact Nat.lt_succ_self _
    · intro p hp
      rcases List.mem_append.mp hp with hpl | hpn
      · have hne : p.2.label ≠ table.nextLabel :=
          Nat.ne_of_lt (hT.labelLt p hpl)
        dsimp only
        rw [if_neg hne]
        exact hT.ltiComplete p hpl
      · simp only [List.mem_singleton] at hpn
        subst hpn
        simp
    · intro l id hl
      dsimp only at hl ⊢
      by_cases hlr : l = table.nextLabel
      · subst hlr
        rw [if_pos rfl] at hl
        injection hl with hl
        subst hl
        refine ⟨⟨task.fields, task.embedding, table.nextLabel⟩, ?_, rfl⟩
        rw [alookup_append_none halo]
        exact alookup_singleton_self
      · rw [if_neg hlr] at hl
        obtain ⟨r'', halo'', hlab⟩ := hT.ltiSound l id hl
        exact ⟨r'', alookup_append_some halo'', hlab⟩
    · intro p hp kv hkv
      dsimp only
      rcases List.mem_append.mp hp with hpl | hpn
      · exact mem_fiFoldIns.mpr (Or.inr (hT.fiComplete p hpl kv hkv))
      · simp only [List.mem_singleton] at hpn
        subst hpn
        exact mem_fiFoldIns.mpr (Or.inl ⟨rfl, hkv⟩)
    · exact fiFoldIns_nodup hT.fiNodup
    · intro ix hix q hq hqd
      injection hix with hix
      subst hix
      rcases mem_aset hq with rfl | ⟨hqm, hqne⟩
      · refine ⟨task.recordID, ⟨task.fields, task.embedding, table.nextLabel⟩, ?_, ?_, rfl, rfl⟩
        · simp
        · rw [alookup_append_none halo]
          exact alookup_singleton_self
      · obtain ⟨id, r', hlid, halor, hlab, hemb⟩ := hixpts q hqm hqd
        refine ⟨id, r', ?_, alookup_append_some halor, hlab, hemb⟩
        dsimp only
        rw [if_neg hqne]
        exact hlid

/-- One delete preserves the table invariant. -/
theorem tableInv_removeFromTable {table : Table} (hT : TableInv table)
    {recordID : String} {r : Record} (halo : alookup table.records recordID = some r) :
    TableInv (removeFromTable table recordID r) := by
  have hrmem : (recordID, r) ∈ table.records := mem_of_alookup halo
  constructor
  · exact List.Nodup.sublist (List.Sublist.map Prod.fst (aerase_sublist _ _)) hT.nodupKeys
  · intro p hp
    exact hT.labelLt p (mem_aerase.mp hp).1
  · intro p hp
    obtain ⟨hpl, hpk⟩ := mem_aerase.mp hp
    have hne : p.2.label ≠ r.label := by
      intro he
      have := label_inj hT hpl hrmem he
      exact hpk (by rw [this])
    simp only [removeFromTable, if_neg hne]
    exact hT.ltiComplete p hpl
  · intro l id hl
    by_cases hlr : l = r.label
    · subst hlr
      simp only [removeFromTable] at hl
      simp at hl
    · simp only [removeFromTable, if_neg hlr] at hl
      obtain ⟨r'', halo'', hlab⟩ := hT.ltiSound l id hl
      by_cases hid : id = recordID
      · subst hid
        rw [halo] at halo''
        injection halo'' with he
        rw [← he] at hlab
        exact absurd hlab.symm hlr
      · refine ⟨r'', ?_, hlab⟩
        simp only [removeFromTable]
        rw [alookup_aerase_ne hid]
        exact halo''
  · intro p hp kv hkv
    obtain ⟨hpl, hpk⟩ := mem_aerase.mp hp
    refine mem_fiFoldDel.mpr ⟨hT.fiComplete p hpl kv hkv, ?_⟩
    rintro ⟨he, _⟩
    exact hpk he
  · exact fiFoldDel_nodup hT.fiNodup
  · intro ix hix q hq hqd
    simp only [removeFromTable] at hix
    rcases Option.map_eq_some'.mp hix with ⟨ix0, hix0, hmk⟩
    subst hmk
    simp only [markDelete] at hq
    rcases List.mem_map.mp hq with ⟨p0, hp0, hq0⟩
    by_cases hp0l : p0.1 = r.label
    · rw [if_pos hp0l] at hq0
      rw [← hq0] at hqd
      simp at hqd
    · rw [if_neg hp0l] at hq0
      subst hq0
      obtain ⟨id, r', hlid, halor, hlab, hemb⟩ := hT.annCoherent ix0 hix0 p0 hp0 hqd
      refine ⟨id, r', ?_, ?_, hlab, hemb⟩
      · simp only [removeFromTable, if_neg hp0l]
        exact hlid
      · by_cases hid : id = recordID
        · subst hid
          rw [halo] at halor
          injection halor with he
          rw [← he] at hlab
          exact absurd hlab.symm hp0l
        · simp only [removeFromTable]
          rw [alookup_aerase_ne hid]
          exact halor

/-- `processInsert` preserves the engine invariant. -/
theorem engineInv_processInsert {s : EngineState} (hs : EngineInv s) (task : InsertTask) :
    EngineInv (processInsert s task) := by
  intro n T h
  unfold processInsert at h
  by_cases hn : n = task.tableName
  · subst hn
    rw [updateTable_self] at h
    injection h with h
    subst h
    refine tableInv_upsertTable ?_ task
    have h1 := createTable_self s task.tableName task.embedding.length
    rw [h1, Option.getD_some]
    exact (engineInv_createTable hs _ _) task.tableName _ h1
  · rw [updateTable_other _ hn, createTable_other _ hn] at h
    exact hs n T h

/-- `remove` preserves the engine invariant. -/
theorem engineInv_remove {s : EngineState} (hs : EngineInv s) (tn rid : String) :
    EngineInv (remove s tn rid) := by
  unfold remove
  cases hst : s tn with
  | none => exact hs
  | some table =>
    dsimp only
    cases halo : alookup table.records rid with
    | none => exact hs
    | some r =>
      dsimp only
      intro n T h
      by_cases hn : n = tn
      · subst hn
        rw [updateTable_self] at h
        injection h with h
        subst h
        exact tableInv_removeFromTable (hs _ _ hst) halo
      · rw [updateTable_other _ hn] at h
        exact hs n T h

/-- Each operation preserves the engine invariant. -/
theorem engineInv_step {s : EngineState} (hs : EngineInv s) (op : Op) :
    EngineInv (step s op) := by
  cases op with
  | upsert t id f e => exact engineInv_processInsert hs _
  | del t id => exact engineInv_remove hs t id

theorem engineInv_runFrom {s : EngineState} (hs : EngineInv s) (ops : List Op) :
    EngineInv (runFrom s ops) := by
  induction ops generalizing s with
  | nil => exact hs
  | cons op rest ih => exact ih (engineInv_step hs op)

/-- Every reachable engine state satisfies the invariants. -/
theorem reachable_inv {s : EngineState} (h : reachable s) : EngineInv s := by
  rcases h with ⟨ops, rfl⟩
  exact engineInv_runFrom engineInv_init ops

/-! ## Further helper lemmas -/

theorem alookup_aset_self {κ α : Type} [DecidableEq κ] (l : List (κ × α)) (k : κ) (a : α) :
    alookup (aset l k a) k = some a := by
  unfold aset
  split
  · next b hl => exact alookup_replace_self (by rw [hl]; rfl) a
  · next hl =>
    rw [alookup_append_none hl]
    exact alookup_singleton_self

theorem alookup_markDelete_self {l : List (Nat × AnnPoint)} {k : Nat} {p : AnnPoint}
    (h : alookup l k = some p) :
    alookup (l.map (fun q => if q.1 = k then (q.1, ⟨q.2.vec, true⟩) else q)) k =
      some ⟨p.vec, true⟩ := by
  induction l with
  | nil => simp [alookup] at h
  | cons q qs ih =>
    by_cases hqk : q.1 = k
    · simp only [alookup, if_pos hqk] at h
      injection h with h
      subst h
      simp [alookup, hqk]
    · simp only [alookup, if_neg hqk] at h
      rw [List.map_cons, if_neg hqk]
      simp only [alookup, if_neg hqk]
      exact ih h

/-- A sorted list without duplicates is strictly sorted. -/
theorem pairwise_lt_of_le_nodup {l : List String}
    (hs : l.Pairwise (fun a b => a ≤ b)) (hn : l.Nodup) : l.Pairwise (· < ·) :=
  (hs.and hn).imp (fun h => lt_of_le_of_ne h.1 h.2)

/-- Transport of pairwise relations through `filterMap`. -/
theorem pairwise_filterMap_of {α β : Type} {R : α → α → Prop} {S : β → β → Prop}
    (f : α → Option β) :
    ∀ (l : List α), l.Pairwise R →
      (∀ a a' b b', a ∈ l → a' ∈ l → R a a' → f a = some b → f a' = some b' → S b b') →
      (l.filterMap f).Pairwise S := by
  intro l
  induction l with
  | nil =>
    intro _ _
    simp
  | cons a as ih =>
    intro hp hmem
    obtain ⟨hha, hpas⟩ := List.pairwise_cons.mp hp
    have hrest : (as.filterMap f).Pairwise S :=
      ih hpas (fun x x' b b' hx hx' => hmem x x' b b'
        (List.mem_cons_of_mem _ hx) (List.mem_cons_of_mem _ hx'))
    rw [List.filterMap_cons]
    cases hfa : f a with
    | none => exact hrest
    | some b =>
      refine List.Pairwise.cons ?_ hrest
      intro b' hb'
      rcases List.mem_filterMap.mp hb' with ⟨a', ha', hfa'⟩
      exact hmem a a' b b' (List.mem_cons_self _ _) (List.mem_cons_of_mem _ ha')
        (hha a' ha') hfa hfa'

/-! ## Label allocation along operation traces -/

/-- Is `recordID` new to table `t` in state `s`?  (An absent table counts
as new: the worker creates it and the record is inserted fresh.) -/
def isFresh (s : EngineState) (t id : String) : Bool :=
  match s t with
  | none => true
  | some T => (alookup T.records id).isNone

/-- The `nextLabel` counter of table `t` (`0` when the table does not exist,
matching the counter of a freshly created table). -/
def nextLabelOf (s : EngineState) (t : String) : Nat :=
  match s t with
  | none => 0
  | some T => T.nextLabel

/-- The labels handed out to new records of table `t` while replaying an
operation sequence from state `s`, in assignment order. -/
def labelsAssignedFrom (s : EngineState) (t : String) : List Op → List Nat
  | [] => []
  | op :: ops =>
    match op with
    | .upsert t' id _ _ =>
      if t' = t ∧ isFresh s t' id then
        nextLabelOf s t :: labelsAssignedFrom (step s op) t ops
      else labelsAssignedFrom (step s op) t ops
    | .del _ _ => labelsAssignedFrom (step s op) t ops

/-- The labels handed out to new records of table `t` over a whole run. -/
def labelsAssigned (t : String) (ops : List Op) : List Nat :=
  labelsAssignedFrom initState t ops

theorem nextLabelOf_eq_of_some {s : EngineState} {t : String} {T : Table}
    (h : s t = some T) : nextLabelOf s t = T.nextLabel := by
  unfold nextLabelOf
  rw [h]

theorem nextLabelOf_eq_of_none {s : EngineState} {t : String}
    (h : s t = none) : nextLabelOf s t = 0 := by
  unfold nextLabelOf
  rw [h]

theorem nextLabelOf_processInsert (s : EngineState) (task : InsertTask) (t : String) :
    nextLabelOf s t ≤ nextLabelOf (processInsert s task) t := by
  have hpi : processInsert s task =
      updateTable (createTable s task.tableName task.embedding.length) task.tableName
        (upsertTable (((createTable s task.tableName task.embedding.length)
          task.tableName).getD (freshTable task.embedding.length)) task) := rfl
  rw [hpi]
  by_cases hn : t = task.tableName
  · subst hn
    rw [nextLabelOf_eq_of_some (updateTable_self _ _ _)]
    rw [createTable_self, Option.getD_some]
    cases hst : s task.tableName with
    | none =>
      rw [Option.getD_none, nextLabelOf_eq_of_none hst]
      exact Nat.zero_le _
    | some T =>
      rw [Option.getD_some, nextLabelOf_eq_of_some hst]
      unfold upsertTable
      cases halo : alookup T.records task.recordID with
      | some r => exact Nat.le_refl _
      | none => exact Nat.le_succ _
  · have hsame : (updateTable (createTable s task.tableName task.embedding.length)
        task.tableName
        (upsertTable (((createTable s task.tableName task.embedding.length)
          task.tableName).getD (freshTable task.embedding.length)) task)) t = s t := by
      rw [updateTable_other _ hn, createTable_other _ hn]
    refine Nat.le_of_eq ?_
    unfold nextLabelOf
    rw [hsame]

theorem nextLabelOf_remove (s : EngineState) (tn rid t : String) :
    nextLabelOf (remove s tn rid) t = nextLabelOf s t := by
  unfold remove
  cases hst : s tn with
  | none => rfl
  | some table =>
    dsimp only
    cases halo : alookup table.records rid with
    | none => rfl
    | some r =>
      dsimp only
      by_cases hn : t = tn
      · subst hn
        rw [nextLabelOf_eq_of_some (updateTable_self _ _ _),
          nextLabelOf_eq_of_some hst]
        rfl
      · have hsame : (updateTable s tn (removeFromTable table rid r)) t = s t :=
          updateTable_other _ hn
        unfold nextLabelOf
        rw [hsame]

theorem nextLabelOf_step_le (s : EngineState) (op : Op) (t : String) :
    nextLabelOf s t ≤ nextLabelOf (step s op) t := by
  cases op with
  | upsert t' id f e => exact nextLabelOf_processInsert s _ t
  | del tn rid => exact Nat.le_of_eq (nextLabelOf_remove s tn rid t).symm

theorem nextLabelOf_runFrom_le (s : EngineState) (ops : List Op) (t : String) :
    nextLabelOf s t ≤ nextLabelOf (runFrom s ops) t := by
  induction ops generalizing s with
  | nil => exact Nat.le_refl _
  | cons op rest ih =>
    exact Nat.le_trans (nextLabelOf_step_le s op t) (ih (step s op))

/-- A fresh upsert into `t` bumps the table's `nextLabel` by exactly one. -/
theorem nextLabelOf_step_fresh (s : EngineState) (t id : String)
    (f : List (String × String)) (e : List ℤ) (hf : isFresh s t id = true) :
    nextLabelOf (step s (.upsert t id f e)) t = nextLabelOf s t + 1 := by
  have hpi : step s (.upsert t id f e) =
      updateTable (createTable s t e.length) t
        (upsertTable (((createTable s t e.length) t).getD (freshTable e.length))
          (⟨t, id, f, e⟩ : InsertTask)) := rfl
  rw [hpi, nextLabelOf_eq_of_some (updateTable_self _ _ _)]
  rw [createTable_self, Option.getD_some]
  unfold isFresh at hf
  cases hst : s t with
  | none =>
    rw [Option.getD_none, nextLabelOf_eq_of_none hst]
    rfl
  | some T =>
    rw [hst] at hf
    rw [Option.getD_some, nextLabelOf_eq_of_some hst]
    rw [Option.isNone_iff_eq_none] at hf
    unfold upsertTable
    dsimp only
    rw [hf]

/-- The assigned-label trace from any state is strictly increasing and
bounded by the final `nextLabel`. -/
theorem labelsAssignedFrom_spec (t : String) :
    ∀ (ops : List Op) (s : EngineState),
      (labelsAssignedFrom s t ops).Chain' (· < ·) ∧
      ∀ l ∈ labelsAssignedFrom s t ops,
        nextLabelOf s t ≤ l ∧ l < nextLabelOf (runFrom s ops) t := by
  intro ops
  induction ops with
  | nil =>
    intro s
    exact ⟨List.chain'_nil, by simp [labelsAssignedFrom]⟩
  | cons op rest ih =>
    intro s
    obtain ⟨ihc, ihb⟩ := ih (step s op)
    have hrun : runFrom s (op :: rest) = runFrom (step s op) rest := rfl
    cases op with
    | del tn rid =>
      refine ⟨ihc, fun l hl => ?_⟩
      obtain ⟨h1, h2⟩ := ihb l hl
      exact ⟨Nat.le_trans (nextLabelOf_step_le s _ t) h1, h2⟩
    | upsert t' id f e =>
      simp only [labelsAssignedFrom]
      by_cases hc : t' = t ∧ isFresh s t' id
      · rw [if_pos hc]
        obtain ⟨ht', hfr⟩ := hc
        subst ht'
        have hbump := nextLabelOf_step_fresh s t' id f e hfr
        constructor
        · refine List.chain'_cons'.mpr ⟨?_, ihc⟩
          intro y hy
          have hym := List.mem_of_mem_head? hy
          have := (ihb y hym).1
          rw [hbump] at this
          exact Nat.lt_of_succ_le this
        · intro l hl
          rcases List.mem_cons.mp hl with rfl | hl
          · refine ⟨Nat.le_refl _, ?_⟩
            calc nextLabelOf s t' < nextLabelOf s t' + 1 := Nat.lt_succ_self _
            _ = nextLabelOf (step s (.upsert t' id f e)) t' := hbump.symm
            _ ≤ nextLabelOf (runFrom (step s (.upsert t' id f e)) rest) t' :=
                nextLabelOf_runFrom_le _ rest t'
          · obtain ⟨h1, h2⟩ := ihb l hl
            exact ⟨Nat.le_trans (nextLabelOf_step_le s _ t') h1, h2⟩
      · rw [if_neg hc]
        refine ⟨ihc, fun l hl => ?_⟩
        obtain ⟨h1, h2⟩ := ihb l hl
        exact ⟨Nat.le_trans (nextLabelOf_step_le s _ t) h1, h2⟩

/-- `queryHybrid` equals the filtered, truncated candidate list. -/
theorem queryHybrid_eq_filter_take (s : EngineState) (t f v : String)
    (q : List ℤ) (k : Nat) :
    queryHybrid s t f v q k =
      ((queryEmbedding s t q (k * 10)).filter
        (fun id => decide (id ∈ queryField s t f v))).take k := by
  simp only [queryHybrid]
  by_cases hf : queryField s t f v = []
  · rw [if_pos hf, hf]
    simp
  · rw [if_neg hf]
    by_cases hk : k < ((queryEmbedding s t q (k * 10)).filter
        (fun id => decide (id ∈ queryField s t f v))).length
    · rw [if_pos hk]
    · rw [if_neg hk, List.take_of_length_le (Nat.le_of_not_lt hk)]

/-! ## Concrete traces used by witnesses and counterexamples -/

/-- Two distinct records in table `users`. -/
def opsAB : List Op :=
  [ .upsert "users" "r1" [("name", "Alice"), ("email", "a@x")] [1, 0, 0],
    .upsert "users" "r2" [("name", "Bob")] [0, 1, 0] ]

/-- Insert `r1` with `name = Alice`, then update it to `name = Bob`. -/
def opsUpd : List Op :=
  [ .upsert "users" "r1" [("name", "Alice")] [1, 0, 0],
    .upsert "users" "r1" [("name", "Bob")] [1, 0, 0] ]

/-- The update trace followed by a delete of `r1`. -/
def opsUpdDel : List Op :=
  [ .upsert "users" "r1" [("name", "Alice")] [1, 0, 0],
    .upsert "users" "r1" [("name", "Bob")] [1, 0, 0],
    .del "users" "r1" ]

/-- Inserts, a delete, a re-insert and an update, exercising label allocation. -/
def ops7w : List Op :=
  [ .upsert "users" "r1" [("name", "Alice")] [1, 0, 0],
    .upsert "users" "r2" [("name", "Bob")] [0, 1, 0],
    .del "users" "r1",
    .upsert "users" "r1" [("name", "Ann")] [0, 0, 1],
    .upsert "users" "r2" [("name", "Rob")] [1, 1, 0] ]

/-! ## The claims -/

/-- **C6.**  When the worker applies an upsert task: a `record_id` new to the
table is assigned `label = next_label` and `next_label` is incremented by
one; an already existing `record_id` keeps its stored label unchanged (with
`next_label` untouched) and its point is re-added to the ANN index at that
same label.  `T` is the table the worker sees after lazy creation. -/
theorem claim6_upsert_label_allocation (s : EngineState) (task : InsertTask) (T : Table)
    (hT : (createTable s task.tableName task.embedding.length) task.tableName = some T) :
    ∃ T', (processInsert s task) task.tableName = some T' ∧
      ((alookup T.records task.recordID = none →
          alookup T'.records task.recordID =
            some ⟨task.fields, task.embedding, T.nextLabel⟩ ∧
          T'.nextLabel = T.nextLabel + 1) ∧
        ∀ r, alookup T.records task.recordID = some r →
          alookup T'.records task.recordID =
            some ⟨task.fields, task.embedding, r.label⟩ ∧
          T'.nextLabel = T.nextLabel ∧
          ∃ ix', T'.index = some ix' ∧
            alookup ix'.points r.label = some ⟨task.embedding, false⟩) := by
  refine ⟨upsertTable T task, ?_, ?_, ?_⟩
  · have hpi : processInsert s task =
        updateTable (createTable s task.tableName task.embedding.length) task.tableName
          (upsertTable (((createTable s task.tableName task.embedding.length)
            task.tableName).getD (freshTable task.embedding.length)) task) := rfl
    rw [hpi, hT, Option.getD_some, updateTable_self]
  · intro halo
    have hup : upsertTable T task =
        { records := T.records ++
            [(task.recordID, ⟨task.fields, task.embedding, T.nextLabel⟩)]
          index := some (addPoint
            (T.index.getD { dim := task.embedding.length, points := [] })
            task.embedding T.nextLabel)
          labelToID := fun l => if l = T.nextLabel then some task.recordID else T.labelToID l
          nextLabel := T.nextLabel + 1
          dim := T.dim
          fieldIndex := fiFoldIns task.fields task.recordID T.fieldIndex } := by
      unfold upsertTable
      rw [halo]
    rw [hup]
    refine ⟨?_, rfl⟩
    rw [alookup_append_none halo]
    exact alookup_singleton_self
  · intro r halo
    have hup : upsertTable T task =
        { records := T.records.map
            (fun p => if p.1 = task.recordID then
              (task.recordID, ⟨task.fields, task.embedding, r.label⟩) else p)
          index := some (addPoint
            (T.index.getD { dim := task.embedding.length, points := [] })
            task.embedding r.label)
          labelToID := fun l => if l = r.label then some task.recordID else T.labelToID l
          nextLabel := T.nextLabel
          dim := T.dim
          fieldIndex := fiFoldIns task.fields task.recordID T.fieldIndex } := by
      unfold upsertTable
      rw [halo]
    rw [hup]
    refine ⟨?_, rfl, ?_⟩
    · exact alookup_replace_self (by rw [halo]; rfl) _
    · refine ⟨_, rfl, ?_⟩
      show alookup (aset (T.index.getD
        { dim := task.embedding.length, points := [] }).points r.label
        ⟨task.embedding, false⟩) r.label = some ⟨task.embedding, false⟩
      exact alookup_aset_self _ _ _

/-- The engine state seen by the C6 witness: one record `r1` in `users`. -/
def s6w : EngineState := run [ .upsert "users" "r1" [("name", "Alice")] [1, 0, 0] ]

/-- The C6 witness task: an update of the existing `r1`. -/
def task6w : InsertTask := ⟨"users", "r1", [("name", "Bob")], [0, 1, 0]⟩

/-- The table the worker sees when applying `task6w`. -/
def T6w : Table :=
  ((createTable s6w task6w.tableName task6w.embedding.length) task6w.tableName).getD
    (freshTable task6w.embedding.length)

theorem claim6_witness :
    ∃ T', (processInsert s6w task6w) "users" = some T' ∧
      ((alookup T6w.records "r1" = none →
          alookup T'.records "r1" = some ⟨task6w.fields, task6w.embedding, T6w.nextLabel⟩ ∧
          T'.nextLabel = T6w.nextLabel + 1) ∧
        ∀ r, alookup T6w.records "r1" = some r →
          alookup T'.records "r1" = some ⟨task6w.fields, task6w.embedding, r.label⟩ ∧
          T'.nextLabel = T6w.nextLabel ∧
          ∃ ix', T'.index = some ix' ∧
            alookup ix'.points r.label = some ⟨task6w.embedding, false⟩) :=
  claim6_upsert_label_allocation s6w task6w T6w rfl

/-- **C7.**  Along any operation sequence from the empty engine (no restart),
the labels assigned to distinct new record ids of a table are strictly
increasing in assignment order (hence pairwise distinct), and the table's
final `next_label` exceeds every label ever assigned — no label is reused. -/
theorem claim7_labels_strictly_increasing (ops : List Op) (t : String) :
    (labelsAssigned t ops).Chain' (· < ·) ∧
    (labelsAssigned t ops).Nodup ∧
    ∀ l ∈ labelsAssigned t ops, l < nextLabelOf (run ops) t := by
  obtain ⟨hc, hb⟩ := labelsAssignedFrom_spec t ops initState
  refine ⟨hc, ?_, fun l hl => (hb l hl).2⟩
  have hp : (labelsAssigned t ops).Pairwise (· < ·) :=
    (List.chain'_iff_pairwise).mp hc
  exact hp.imp Nat.ne_of_lt

theorem claim7_witness :
    (labelsAssigned "users" ops7w).Chain' (· < ·) ∧
    (labelsAssigned "users" ops7w).Nodup ∧
    ∀ l ∈ labelsAssigned "users" ops7w, l < nextLabelOf (run ops7w) "users" :=
  claim7_labels_strictly_increasing ops7w "users"

/-- **C9.**  `queryField` returns exactly the members of the
`fieldIndex[field][value]` bucket, sorted lexicographically ascending
(strictly, as the bucket is duplicate-free), and the empty list when the
table is absent; an absent field or value denotes the empty bucket. -/
theorem claim9_queryField_sorted_exact (s : EngineState) (h : reachable s)
    (t f v : String) :
    (s t = none → queryField s t f v = []) ∧
    ∀ T, s t = some T →
      (queryField s t f v).Pairwise (· < ·) ∧
      ∀ id, id ∈ queryField s t f v ↔ id ∈ T.fieldIndex f v := by
  constructor
  · intro h0
    unfold queryField
    rw [h0]
  · intro T hT
    have hq : queryField s t f v =
        List.insertionSort (fun a b => a ≤ b) (T.fieldIndex f v) := by
      unfold queryField
      rw [hT]
    have hn : (T.fieldIndex f v).Nodup := (reachable_inv h t T hT).fiNodup f v
    constructor
    · rw [hq]
      refine pairwise_lt_of_le_nodup (List.sorted_insertionSort _ _) ?_
      exact (List.perm_insertionSort _ _).symm.nodup hn
    · intro id
      rw [hq, List.mem_insertionSort]

theorem claim9_witness :
    (run opsAB "users" = none → queryField (run opsAB) "users" "name" "Alice" = []) ∧
    ∀ T, run opsAB "users" = some T →
      (queryField (run opsAB) "users" "name" "Alice").Pairwise (· < ·) ∧
      ∀ id, id ∈ queryField (run opsAB) "users" "name" "Alice" ↔
        id ∈ T.fieldIndex "name" "Alice" :=
  claim9_queryField_sorted_exact (run opsAB) ⟨opsAB, rfl⟩ "users" "name" "Alice"

/-- **C3 (amended).**  In every reachable state the field index is complete:
a live record appears in `field_index[k][v]` for every `(k, v)` its fields
map.  (The converse of the original claim fails, see the counterexample:
an update leaves a stale entry under the old value.) -/
theorem claim3_fieldIndex_complete (s : EngineState) (h : reachable s)
    (t : String) (T : Table) (id : String) (r : Record) (k v : String)
    (hT : s t = some T) (hr : alookup T.records id = some r)
    (hkv : alookup r.fields k = some v) :
    id ∈ T.fieldIndex k v :=
  (reachable_inv h t T hT).fiComplete (id, r) (mem_of_alookup hr)
    (k, v) (mem_of_alookup hkv)

theorem claim3_witness :
    "r1" ∈ (tableOf (run opsAB) "users").fieldIndex "name" "Alice" :=
  claim3_fieldIndex_complete (run opsAB) ⟨opsAB, rfl⟩ "users"
    (tableOf (run opsAB) "users") "r1"
    ⟨[("name", "Alice"), ("email", "a@x")], [1, 0, 0], 0⟩
    "name" "Alice" rfl (by decide) (by decide)

/-- **C3, counterexample.**  After inserting `r1` with `name = Alice` and
updating it to `name = Bob`, the reachable state keeps `r1` in
`field_index["name"]["Alice"]` although no live record maps `name` to
`Alice` — the claimed "if and only if" fails. -/
theorem claim3_counterexample :
    reachable (run opsUpd) ∧
    "r1" ∈ (tableOf (run opsUpd) "users").fieldIndex "name" "Alice" ∧
    ¬∃ r, alookup (tableOf (run opsUpd) "users").records "r1" = some r ∧
        alookup r.fields "name" = some "Alice" := by
  refine ⟨⟨opsUpd, rfl⟩, by decide, ?_⟩
  rintro ⟨r, hr, hf⟩
  have hr' : alookup (tableOf (run opsUpd) "users").records "r1" =
      some ⟨[("name", "Bob")], [1, 0, 0], 0⟩ := by decide
  rw [hr'] at hr
  injection hr with hr
  subst hr
  exact absurd hf (by decide)

/-- **C4 (amended).**  `delete` is a no-op for an absent table or record;
for a present record it removes the record from `records` and `label_to_id`,
removes its id from `field_index[k][v]` for every `(k, v)` of the record's
fields at deletion time (so `query_field` no longer returns it for those
pairs), and marks its label deleted in the ANN index.  (The original "query
field never returns the record afterwards" fails for stale entries left by
earlier updates, see the counterexample.) -/
theorem claim4_remove_spec (s : EngineState) (t id : String) :
    (s t = none → remove s t id = s) ∧
    (∀ T, s t = some T → alookup T.records id = none → remove s t id = s) ∧
    (∀ T r, s t = some T → alookup T.records id = some r →
      ∃ T', (remove s t id) t = some T' ∧
        alookup T'.records id = none ∧
        T'.labelToID r.label = none ∧
        (∀ kv ∈ r.fields, id ∉ T'.fieldIndex kv.1 kv.2 ∧
          id ∉ queryField (remove s t id) t kv.1 kv.2) ∧
        ∀ ix, T.index = some ix → ∃ ix', T'.index = some ix' ∧
          ∀ p, alookup ix.points r.label = some p →
            alookup ix'.points r.label = some ⟨p.vec, true⟩) := by
  refine ⟨?_, ?_, ?_⟩
  · intro h0
    unfold remove
    rw [h0]
  · intro T hT halo
    unfold remove
    rw [hT]
    dsimp only
    rw [halo]
  · intro T r hT halo
    have hrm : remove s t id = updateTable s t (removeFromTable T id r) := by
      unfold remove
      rw [hT]
      dsimp only
      rw [halo]
    refine ⟨removeFromTable T id r, ?_, ?_, ?_, ?_, ?_⟩
    · rw [hrm, updateTable_self]
    · show alookup (aerase T.records id) id = none
      exact alookup_aerase_self _ _
    · show (if r.label = r.label then none else T.labelToID r.label) = none
      rw [if_pos rfl]
    · intro kv hkv
      constructor
      · show id ∉ fiFoldDel r.fields id T.fieldIndex kv.1 kv.2
        intro hmem
        exact (mem_fiFoldDel.mp hmem).2 ⟨rfl, hkv⟩
      · rw [hrm]
        have hqf : queryField (updateTable s t (removeFromTable T id r)) t kv.1 kv.2 =
            List.insertionSort (fun a b => a ≤ b)
              ((removeFromTable T id r).fieldIndex kv.1 kv.2) := by
          unfold queryField
          rw [updateTable_self]
        rw [hqf, List.mem_insertionSort]
        show id ∉ fiFoldDel r.fields id T.fieldIndex kv.1 kv.2
        intro hmem
        exact (mem_fiFoldDel.mp hmem).2 ⟨rfl, hkv⟩
    · intro ix hix
      refine ⟨markDelete ix r.label, ?_, ?_⟩
      · show T.index.map (fun ix => markDelete ix r.label) = some (markDelete ix r.label)
        rw [hix]
        rfl
      · intro p hp
        exact alookup_markDelete_self hp

theorem claim4_witness :
    ∃ T', (remove (run opsAB) "users" "r1") "users" = some T' ∧
      alookup T'.records "r1" = none ∧
      T'.labelToID 0 = none ∧
      (∀ kv ∈ ([("name", "Alice"), ("email", "a@x")] : List (String × String)),
        "r1" ∉ T'.fieldIndex kv.1 kv.2 ∧
        "r1" ∉ queryField (remove (run opsAB) "users" "r1") "users" kv.1 kv.2) ∧
      ∀ ix, (tableOf (run opsAB) "users").index = some ix →
        ∃ ix', T'.index = some ix' ∧
          ∀ p, alookup ix.points 0 = some p →
            alookup ix'.points 0 = some ⟨p.vec, true⟩ :=
  (claim4_remove_spec (run opsAB) "users" "r1").2.2
    (tableOf (run opsAB) "users")
    ⟨[("name", "Alice"), ("email", "a@x")], [1, 0, 0], 0⟩ rfl (by decide)

/-- **C4, counterexample.**  After insert (`name = Alice`), update
(`name = Bob`) and delete of `r1`, the record is gone from `records`, yet
`query_field` on the stale pair (`name`, `Alice`) still returns it. -/
theorem claim4_counterexample :
    reachable (run opsUpdDel) ∧
    recordOf (run opsUpdDel) "users" "r1" = none ∧
    queryField (run opsUpdDel) "users" "name" "Alice" = ["r1"] :=
  ⟨⟨opsUpdDel, rfl⟩, by decide, by decide⟩

/-- **C5.**  `queryHybrid` returns the empty list when the field filter is
empty, and otherwise the first up-to-`topK` elements, in order, of the
`queryEmbedding` candidates for `k = topK * 10` restricted to ids in the
field-filter result. -/
theorem claim5_queryHybrid_spec (s : EngineState) (t f v : String)
    (q : List ℤ) (k : Nat) :
    queryHybrid s t f v q k =
      ((queryEmbedding s t q (k * 10)).filter
        (fun id => decide (id ∈ queryField s t f v))).take k ∧
    (queryField s t f v = [] → queryHybrid s t f v q k = []) := by
  refine ⟨queryHybrid_eq_filter_take s t f v q k, ?_⟩
  intro hf
  simp only [queryHybrid]
  rw [if_pos hf]

theorem claim5_witness :
    queryHybrid (run opsAB) "users" "name" "Alice" [1, 0, 0] 1 =
      ((queryEmbedding (run opsAB) "users" [1, 0, 0] (1 * 10)).filter
        (fun id => decide (id ∈ queryField (run opsAB) "users" "name" "Alice"))).take 1 :=
  (claim5_queryHybrid_spec (run opsAB) "users" "name" "Alice" [1, 0, 0] 1).1

/-- **C10.**  Every id returned by `queryEmbedding` (and hence by
`queryHybrid`) is the id of a record currently live in the table: search
labels with no `labelToID` entry are silently dropped, so deleted or unknown
labels never surface. -/
theorem claim10_results_live (s : EngineState) (h : reachable s)
    (t f v : String) (q : List ℤ) (k : Nat) (id : String)
    (hid : id ∈ queryEmbedding s t q k ∨ id ∈ queryHybrid s t f v q k) :
    ∃ r, recordOf s t id = some r := by
  have main : ∀ k', id ∈ queryEmbedding s t q k' → ∃ r, recordOf s t id = some r := by
    intro k' hm
    unfold queryEmbedding at hm
    cases hst : s t with
    | none =>
      rw [hst] at hm
      simp at hm
    | some T =>
      rw [hst] at hm
      dsimp only at hm
      cases hix : T.index with
      | none =>
        rw [hix] at hm
        simp at hm
      | some ix =>
        rw [hix] at hm
        dsimp only at hm
        rcases List.mem_filterMap.mp hm with ⟨dl, _, hmap⟩
        obtain ⟨r, halo, _⟩ := (reachable_inv h t T hst).ltiSound dl.2 id hmap
        refine ⟨r, ?_⟩
        unfold recordOf
        rw [hst]
        exact halo
  rcases hid with hm | hm
  · exact main k hm
  · rw [queryHybrid_eq_filter_take] at hm
    have hm2 := List.mem_of_mem_take hm
    exact main (k * 10) (List.mem_filter.mp hm2).1

theorem claim10_witness :
    ∃ r, recordOf (run opsAB) "users" "r1" = some r :=
  claim10_results_live (run opsAB) ⟨opsAB, rfl⟩ "users" "name" "Alice"
    [1, 0, 0] 2 "r1" (Or.inl (by
      have hq : queryEmbedding (run opsAB) "users" [1, 0, 0] 2 = ["r1", "r2"] := by
        decide
      rw [hq]
      exact List.mem_cons_self _ _))

/-- The engine state of the C2 evaluation: table `users` with `dim = 3`. -/
def s2w : EngineState := run [ .upsert "users" "user1" [("name", "Alice")] [1, 0, 0] ]

/-- **C2, code evaluation.**  `queryEmbedding` performs no dimension check:
on a table of `dim` 3, a length-2 query vector is passed straight to the
ANN search and an ordinary (non-error) id list is returned.  No
`DimensionMismatch` error exists anywhere in the engine — `queryEmbedding`'s
return type carries no error case at all. -/
theorem claim2_no_dim_check :
    (tableOf s2w "users").dim = 3 ∧
    ([(1 : ℤ), 1] : List ℤ).length ≠ (tableOf s2w "users").dim ∧
    queryEmbedding s2w "users" [1, 1] 1 = ["user1"] :=
  ⟨by decide, by decide, by decide⟩

/-- Every element of a `searchKnn` result is a live stored point's
distance/label pair. -/
theorem searchKnn_mem {ix : AnnIndex} {q : List ℤ} {k : Nat} {x : ℤ × Nat}
    (hx : x ∈ searchKnn ix q k) :
    ∃ p ∈ ix.points, p.2.deleted = false ∧ x = (d2 q p.2.vec, p.1) := by
  unfold searchKnn at hx
  have hx1 := List.mem_of_mem_take hx
  rw [List.mem_insertionSort] at hx1
  rcases List.mem_map.mp hx1 with ⟨p, hp, rfl⟩
  have hf := List.mem_filter.mp hp
  refine ⟨p, hf.1, ?_, rfl⟩
  simpa using hf.2

/-- A `searchKnn` result is sorted by distance ascending. -/
theorem searchKnn_sorted (ix : AnnIndex) (q : List ℤ) (k : Nat) :
    (searchKnn ix q k).Pairwise (fun a b => a.1 ≤ b.1) := by
  unfold searchKnn
  haveI h1 : IsTotal (ℤ × Nat) (fun a b => a.1 ≤ b.1) := ⟨fun a b => le_total a.1 b.1⟩
  haveI h2 : IsTrans (ℤ × Nat) (fun a b => a.1 ≤ b.1) :=
    ⟨fun a b c hab hbc => le_trans hab hbc⟩
  exact List.Pairwise.sublist (List.take_sublist _ _) (List.sorted_insertionSort _ _)

theorem searchKnn_length_le (ix : AnnIndex) (q : List ℤ) (k : Nat) :
    (searchKnn ix q k).length ≤ k :=
  List.length_take_le _ _

/-- **C1.**  `queryEmbedding` returns at most `topK` ids, ordered by L2
distance to the query ascending (nearest first): consecutive results are
live records whose stored embeddings have non-decreasing squared L2
distance to the query vector. -/
theorem claim1_queryEmbedding_ranked (s : EngineState) (h : reachable s) (t : String)
    (q : List ℤ) (k : Nat) :
    (queryEmbedding s t q k).length ≤ k ∧
    (queryEmbedding s t q k).Pairwise (fun a b => ∃ ra rb,
      recordOf s t a = some ra ∧ recordOf s t b = some rb ∧
      d2 q ra.embedding ≤ d2 q rb.embedding) := by
  unfold queryEmbedding
  cases hst : s t with
  | none => constructor <;> simp
  | some T =>
    dsimp only
    cases hix : T.index with
    | none => constructor <;> simp
    | some ix =>
      dsimp only
      constructor
      · exact le_trans (List.length_filterMap_le _ _) (searchKnn_length_le ix q k)
      · refine pairwise_filterMap_of _ (searchKnn ix q k) (searchKnn_sorted ix q k) ?_
        intro a a' b b' ha ha' hrel hfa hfa'
        obtain ⟨pa, hpa, hpad, rfl⟩ := searchKnn_mem ha
        obtain ⟨pb, hpb, hpbd, rfl⟩ := searchKnn_mem ha'
        obtain ⟨ida, ra, hlia, haloa, hlaba, hemba⟩ :=
          (reachable_inv h t T hst).annCoherent ix hix pa hpa hpad
        obtain ⟨idb, rb, hlib, halob, hlabb, hembb⟩ :=
          (reachable_inv h t T hst).annCoherent ix hix pb hpb hpbd
        dsimp only at hfa hfa' hrel
        rw [hlia] at hfa
        rw [hlib] at hfa'
        injection hfa with hfa
        injection hfa' with hfa'
        subst hfa
        subst hfa'
        refine ⟨ra, rb, ?_, ?_, ?_⟩
        · unfold recordOf
          rw [hst]
          exact haloa
        · unfold recordOf
          rw [hst]
          exact halob
        · rw [hemba, hembb]
          exact hrel

theorem claim1_witness :
    (queryEmbedding (run opsAB) "users" [1, 0, 0] 2).length ≤ 2 ∧
    (queryEmbedding (run opsAB) "users" [1, 0, 0] 2).Pairwise (fun a b => ∃ ra rb,
      recordOf (run opsAB) "users" a = some ra ∧
      recordOf (run opsAB) "users" b = some rb ∧
      d2 [1, 0, 0] ra.embedding ≤ d2 [1, 0, 0] rb.embedding) :=
  claim1_queryEmbedding_ranked (run opsAB) ⟨opsAB, rfl⟩ "users" [1, 0, 0] 2

/-! ## Lemmas about the `loadTable` fold -/

theorem loadFold_records (snap : Snapshot) :
    ∀ t : Table, (∀ e ∈ snap, alookup t.records e.1 = none) →
      ((snap.map Prod.fst).Nodup) →
      (snap.foldl loadStep t).records =
        t.records ++ snap.map (fun e => (e.1, ⟨e.2.1, e.2.2.1, e.2.2.2⟩)) := by
  induction snap with
  | nil =>
    intro t _ _
    simp
  | cons e rest ih =>
    intro t hd hn
    simp only [List.foldl_cons]
    have he : alookup t.records e.1 = none := hd e (List.mem_cons_self _ _)
    have h1 : (loadStep t e).records = t.records ++ [(e.1, ⟨e.2.1, e.2.2.1, e.2.2.2⟩)] := by
      show aset t.records e.1 _ = _
      exact aset_of_alookup_none _ he
    have hd' : ∀ e' ∈ rest, alookup (loadStep t e).records e'.1 = none := by
      intro e' he'
      rw [h1, alookup_append_none (hd e' (List.mem_cons_of_mem _ he'))]
      apply alookup_singleton_ne
      intro hc
      exact (List.nodup_cons.mp (by simpa using hn)).1
        (List.mem_map.mpr ⟨e', he', hc.symm⟩)
    rw [ih (loadStep t e) hd' (by simpa using (List.nodup_cons.mp (by simpa using hn)).2)]
    rw [h1, List.append_assoc, List.singleton_append, List.map_cons]

theorem loadFold_labelToID_not_mem (snap : Snapshot) :
    ∀ (t : Table) {l : Nat}, l ∉ snap.map (fun e => e.2.2.2) →
      (snap.foldl loadStep t).labelToID l = t.labelToID l := by
  induction snap with
  | nil =>
    intro t l _
    rfl
  | cons e0 rest ih =>
    intro t l hl
    simp only [List.map_cons, List.mem_cons] at hl
    push_neg at hl
    simp only [List.foldl_cons]
    rw [ih (loadStep t e0) hl.2]
    show (if l = e0.2.2.2 then some e0.1 else t.labelToID l) = t.labelToID l
    rw [if_neg hl.1]

theorem loadFold_labelToID_assigned (snap : Snapshot) :
    ∀ (t : Table), ((snap.map (fun e => e.2.2.2)).Nodup) →
      ∀ e ∈ snap, (snap.foldl loadStep t).labelToID e.2.2.2 = some e.1 := by
  induction snap with
  | nil =>
    intro t _ e he
    simp at he
  | cons e0 rest ih =>
    intro t hn e he
    simp only [List.foldl_cons]
    rcases List.mem_cons.mp he with rfl | he'
    · have hnotin : e.2.2.2 ∉ rest.map (fun e => e.2.2.2) :=
        (List.nodup_cons.mp (by simpa using hn)).1
      rw [loadFold_labelToID_not_mem rest _ hnotin]
      show (if e.2.2.2 = e.2.2.2 then some e.1 else t.labelToID e.2.2.2) = some e.1
      rw [if_pos rfl]
    · exact ih (loadStep t e0) (List.nodup_cons.mp (by simpa using hn)).2 e he'

theorem loadFold_labelToID_some (snap : Snapshot) :
    ∀ (t : Table) (l : Nat) (id : String),
      (snap.foldl loadStep t).labelToID l = some id →
      (∃ e ∈ snap, e.1 = id ∧ e.2.2.2 = l) ∨ t.labelToID l = some id := by
  induction snap with
  | nil =>
    intro t l id h
    exact Or.inr h
  | cons e0 rest ih =>
    intro t l id h
    rcases ih (loadStep t e0) l id h with ⟨e, he, h1, h2⟩ | hstep
    · exact Or.inl ⟨e, List.mem_cons_of_mem _ he, h1, h2⟩
    · have hstep' : (if l = e0.2.2.2 then some e0.1 else t.labelToID l) = some id := hstep
      by_cases hle : l = e0.2.2.2
      · rw [if_pos hle] at hstep'
        injection hstep' with h1
        exact Or.inl ⟨e0, List.mem_cons_self _ _, h1, hle.symm⟩
      · rw [if_neg hle] at hstep'
        exact Or.inr hstep'

theorem loadFold_fieldIndex (snap : Snapshot) :
    ∀ (t : Table) (k v id : String),
      id ∈ (snap.foldl loadStep t).fieldIndex k v ↔
        (∃ e ∈ snap, e.1 = id ∧ (k, v) ∈ e.2.1) ∨ id ∈ t.fieldIndex k v := by
  induction snap with
  | nil =>
    intro t k v id
    simp
  | cons e0 rest ih =>
    intro t k v id
    simp only [List.foldl_cons]
    rw [ih (loadStep t e0)]
    have hfi : id ∈ (loadStep t e0).fieldIndex k v ↔
        (id = e0.1 ∧ (k, v) ∈ e0.2.1) ∨ id ∈ t.fieldIndex k v := by
      show id ∈ fiFoldIns e0.2.1 e0.1 t.fieldIndex k v ↔ _
      exact mem_fiFoldIns
    rw [hfi]
    constructor
    · rintro (⟨e, he, h1, h2⟩ | (⟨h1, h2⟩ | ht))
      · exact Or.inl ⟨e, List.mem_cons_of_mem _ he, h1, h2⟩
      · exact Or.inl ⟨e0, List.mem_cons_self _ _, h1.symm, h2⟩
      · exact Or.inr ht
    · rintro (⟨e, he, h1, h2⟩ | ht)
      · rcases List.mem_cons.mp he with rfl | he'
        · exact Or.inr (Or.inl ⟨h1.symm, h2⟩)
        · exact Or.inl ⟨e, he', h1, h2⟩
      · exact Or.inr (Or.inr ht)

theorem loadFold_dim_ne_zero (snap : Snapshot) :
    ∀ (t : Table), t.dim ≠ 0 → (snap.foldl loadStep t).dim = t.dim := by
  induction snap with
  | nil =>
    intro t _
    rfl
  | cons e0 rest ih =>
    intro t ht
    simp only [List.foldl_cons]
    have h1 : (loadStep t e0).dim = t.dim := by
      show (if t.dim = 0 then e0.2.2.1.length else t.dim) = t.dim
      rw [if_neg ht]
    rw [ih (loadStep t e0) (by rw [h1]; exact ht), h1]

theorem loadFold_nextLabel_lt (snap : Snapshot) :
    ∀ (t : Table),
      (∀ e ∈ snap, e.2.2.2 < (snap.foldl loadStep t).nextLabel) ∧
      t.nextLabel ≤ (snap.foldl loadStep t).nextLabel := by
  induction snap with
  | nil =>
    intro t
    exact ⟨by simp, Nat.le_refl _⟩
  | cons e0 rest ih =>
    intro t
    simp only [List.foldl_cons]
    obtain ⟨ihe, ihm⟩ := ih (loadStep t e0)
    have hstep : e0.2.2.2 < (loadStep t e0).nextLabel ∧
        t.nextLabel ≤ (loadStep t e0).nextLabel := by
      show e0.2.2.2 < (if e0.2.2.2 ≥ t.nextLabel then e0.2.2.2 + 1 else t.nextLabel) ∧
        t.nextLabel ≤ (if e0.2.2.2 ≥ t.nextLabel then e0.2.2.2 + 1 else t.nextLabel)
      by_cases hc : e0.2.2.2 ≥ t.nextLabel
      · rw [if_pos hc]
        exact ⟨Nat.lt_succ_self _, Nat.le_succ_of_le hc⟩
      · rw [if_neg hc]
        exact ⟨Nat.lt_of_not_le hc, Nat.le_refl _⟩
    refine ⟨?_, Nat.le_trans hstep.2 ihm⟩
    intro e he
    rcases List.mem_cons.mp he with rfl | he'
    · exact Nat.lt_of_lt_of_le hstep.1 ihm
    · exact ihe e he'

theorem loadFold_nextLabel_eq (snap : Snapshot) :
    ∀ (t : Table), (snap.foldl loadStep t).nextLabel = t.nextLabel ∨
      ∃ e ∈ snap, (snap.foldl loadStep t).nextLabel = e.2.2.2 + 1 := by
  induction snap with
  | nil =>
    intro t
    exact Or.inl rfl
  | cons e0 rest ih =>
    intro t
    rcases ih (loadStep t e0) with h | ⟨e, he, hne⟩
    · by_cases hc : e0.2.2.2 ≥ t.nextLabel
      · right
        refine ⟨e0, List.mem_cons_self _ _, ?_⟩
        rw [List.foldl_cons, h]
        show (if e0.2.2.2 ≥ t.nextLabel then e0.2.2.2 + 1 else t.nextLabel) = _
        rw [if_pos hc]
      · left
        rw [List.foldl_cons, h]
        show (if e0.2.2.2 ≥ t.nextLabel then e0.2.2.2 + 1 else t.nextLabel) = _
        rw [if_neg hc]
    · right
      refine ⟨e, List.mem_cons_of_mem _ he, ?_⟩
      rw [List.foldl_cons]
      exact hne

/-- The labels stored in a snapshot of an invariant-satisfying table are
pairwise distinct. -/
theorem saveTable_labels_nodup {T : Table} (hT : TableInv T) :
    ((saveTable T).map (fun e => e.2.2.2)).Nodup := by
  unfold saveTable
  rw [List.map_map]
  have hrec : T.records.Nodup := List.Nodup.of_map _ hT.nodupKeys
  refine List.Nodup.map_on ?_ hrec
  intro x hx y hy hxy
  exact label_inj hT hx hy hxy

theorem saveTable_keys_nodup {T : Table} (hT : TableInv T) :
    ((saveTable T).map Prod.fst).Nodup := by
  unfold saveTable
  rw [List.map_map]
  exact hT.nodupKeys

/-- **C8 (amended).**  Reloading a saved snapshot reproduces `records` and
`label_to_id` exactly, rebuilds `field_index` exactly from the records'
current fields (so any stale entries present before the save are dropped —
see the counterexample for why plain equality fails), sets `dim` from the
first record's embedding length, and sets `next_label` to one more than the
maximum stored label. -/
theorem claim8_saveLoad_roundtrip (s : EngineState) (h : reachable s)
    (t : String) (T : Table) (hT : s t = some T) :
    (loadTable (saveTable T)).records = T.records ∧
    (∀ l, (loadTable (saveTable T)).labelToID l = T.labelToID l) ∧
    (∀ k v id, id ∈ (loadTable (saveTable T)).fieldIndex k v ↔
      ∃ p ∈ T.records, p.1 = id ∧ (k, v) ∈ p.2.fields) ∧
    (∀ idr rest, T.records = idr :: rest → idr.2.embedding ≠ [] →
      (loadTable (saveTable T)).dim = idr.2.embedding.length) ∧
    (∀ p ∈ T.records, p.2.label < (loadTable (saveTable T)).nextLabel) ∧
    (T.records ≠ [] →
      ∃ p ∈ T.records, p.2.label + 1 = (loadTable (saveTable T)).nextLabel) := by
  have hinv := reachable_inv h t T hT
  refine ⟨?_, ?_, ?_, ?_, ?_, ?_⟩
  · unfold loadTable
    rw [loadFold_records (saveTable T) (freshTable 0)
      (fun e _ => rfl) (saveTable_keys_nodup hinv)]
    show (saveTable T).map _ = T.records
    unfold saveTable
    rw [List.map_map]
    refine Eq.trans (List.map_congr_left ?_) (List.map_id _)
    intro p _
    rfl
  · intro l
    cases hl : T.labelToID l with
    | some id =>
      obtain ⟨r, halo, hlab⟩ := hinv.ltiSound l id hl
      have hmem : (id, r) ∈ T.records := mem_of_alookup halo
      have he : ((id, (r.fields, r.embedding, r.label)) :
          String × (List (String × String) × List ℤ × Nat)) ∈ saveTable T := by
        unfold saveTable
        exact List.mem_map.mpr ⟨(id, r), hmem, rfl⟩
      have hass := loadFold_labelToID_assigned (saveTable T) (freshTable 0)
        (saveTable_labels_nodup hinv) _ he
      unfold loadTable
      rw [← hlab]
      exact hass
    | none =>
      cases hl2 : (loadTable (saveTable T)).labelToID l with
      | none => rfl
      | some id =>
        exfalso
        rcases loadFold_labelToID_some (saveTable T) (freshTable 0) l id hl2 with
          ⟨e, he, h1, h2⟩ | hinit
        · unfold saveTable at he
          rcases List.mem_map.mp he with ⟨p, hp, hpe⟩
          have hcomp := hinv.ltiComplete p hp
          have hpl : p.2.label = l := by
            rw [← h2, ← hpe]
          rw [hpl, hl] at hcomp
          exact Option.noConfusion hcomp
        · exact Option.noConfusion hinit
  · intro k v id
    unfold loadTable
    rw [loadFold_fieldIndex]
    constructor
    · rintro (⟨e, he, h1, h2⟩ | hfresh)
      · unfold saveTable at he
        rcases List.mem_map.mp he with ⟨p, hp, rfl⟩
        exact ⟨p, hp, h1, h2⟩
      · simp [freshTable] at hfresh
    · rintro ⟨p, hp, h1, h2⟩
      refine Or.inl ⟨(p.1, (p.2.fields, p.2.embedding, p.2.label)), ?_, h1, h2⟩
      unfold saveTable
      exact List.mem_map.mpr ⟨p, hp, rfl⟩
  · intro idr rest hrec hne
    unfold loadTable saveTable
    rw [hrec, List.map_cons, List.foldl_cons]
    have hd : (loadStep (freshTable 0)
        (idr.1, (idr.2.fields, idr.2.embedding, idr.2.label))).dim =
        idr.2.embedding.length := by
      show (if (freshTable 0).dim = 0 then idr.2.embedding.length else (freshTable 0).dim)
        = idr.2.embedding.length
      rw [if_pos (show (freshTable 0).dim = 0 from rfl)]
    rw [loadFold_dim_ne_zero _ _ (by
      rw [hd]
      intro hc
      exact hne (List.length_eq_zero.mp hc)), hd]
  · intro p hp
    exact (loadFold_nextLabel_lt (saveTable T) (freshTable 0)).1
      (p.1, (p.2.fields, p.2.embedding, p.2.label))
      (by unfold saveTable; exact List.mem_map.mpr ⟨p, hp, rfl⟩)
  · intro hne
    rcases loadFold_nextLabel_eq (saveTable T) (freshTable 0) with h0 | ⟨e, he, heq⟩
    · exfalso
      obtain ⟨p, hp⟩ := List.exists_mem_of_ne_nil T.records hne
      have hlt := (loadFold_nextLabel_lt (saveTable T) (freshTable 0)).1
        (p.1, (p.2.fields, p.2.embedding, p.2.label))
        (by unfold saveTable; exact List.mem_map.mpr ⟨p, hp, rfl⟩)
      rw [h0] at hlt
      exact Nat.not_lt_zero _ hlt
    · unfold saveTable at he
      rcases List.mem_map.mp he with ⟨p, hp, rfl⟩
      exact ⟨p, hp, heq.symm⟩

theorem claim8_witness :
    (loadTable (saveTable (tableOf (run opsAB) "users"))).records =
      (tableOf (run opsAB) "users").records ∧
    (∀ l, (loadTable (saveTable (tableOf (run opsAB) "users"))).labelToID l =
      (tableOf (run opsAB) "users").labelToID l) ∧
    (∀ k v id, id ∈ (loadTable (saveTable (tableOf (run opsAB) "users"))).fieldIndex k v ↔
      ∃ p ∈ (tableOf (run opsAB) "users").records, p.1 = id ∧ (k, v) ∈ p.2.fields) ∧
    (∀ idr rest, (tableOf (run opsAB) "users").records = idr :: rest →
      idr.2.embedding ≠ [] →
      (loadTable (saveTable (tableOf (run opsAB) "users"))).dim =
        idr.2.embedding.length) ∧
    (∀ p ∈ (tableOf (run opsAB) "users").records,
      p.2.label < (loadTable (saveTable (tableOf (run opsAB) "users"))).nextLabel) ∧
    ((tableOf (run opsAB) "users").records ≠ [] →
      ∃ p ∈ (tableOf (run opsAB) "users").records,
        p.2.label + 1 = (loadTable (saveTable (tableOf (run opsAB) "users"))).nextLabel) :=
  claim8_saveLoad_roundtrip (run opsAB) ⟨opsAB, rfl⟩ "users"
    (tableOf (run opsAB) "users") rfl

/-- **C8, counterexample.**  After an update that leaks a stale field-index
entry, saving and loading does not reproduce `field_index`: the pre-save
index still lists `r1` under (`name`, `Alice`), the reloaded one does not. -/
theorem claim8_counterexample :
    reachable (run opsUpd) ∧
    (tableOf (run opsUpd) "users").fieldIndex "name" "Alice" = ["r1"] ∧
    (loadTable (saveTable (tableOf (run opsUpd) "users"))).fieldIndex "name" "Alice"
      = [] :=
  ⟨⟨opsUpd, rfl⟩, by decide, by decide⟩

end MidDB
